import Mathlib

/-!
Verification of the text-cleaning and pacing/pagination core of the
PDF-and-web speech assistant (`src/text_to_audio_app.py`).

Text is modelled as `List Char`.  The per-page cleaning pipeline of
`extract_main_text_from_pdf` (lines 115-120 of the source) is embedded
stage by stage, each Lean definition mirroring one Python statement.
-/

set_option autoImplicit false

namespace PdfAudio

/-- `text.split("\n")`: Python `str.split` on a single newline.  The result is
always non-empty; an empty input gives `[[]]`, matching `"".split("\n") == [""]`. -/
def splitNl : List Char → List (List Char)
  | [] => [[]]
  | c :: rest =>
    match splitNl rest with
    | [] => [[]]
    | l :: ls => if c = '\n' then [] :: l :: ls else (c :: l) :: ls

/-- `" ".join(lines)`: join with a single space between consecutive elements. -/
def joinSp : List (List Char) → List Char
  | [] => []
  | [l] => l
  | l :: l' :: ls => l ++ ' ' :: joinSp (l' :: ls)

/-- A regex word character (`\w`), ASCII fragment: letters, digits, underscore. -/
def isWordChar (c : Char) : Bool := c.isAlphanum || c = '_'

/-- The literal token searched for by `re.split(r"\bReferences\b", ..., flags=IGNORECASE)`,
lower-cased. -/
def refWord : List Char := "references".data

/-- Does `l` begin with the token "references", case-insensitively? -/
def startsWithRef (l : List Char) : Bool :=
  decide ((l.take 10).map Char.toLower = refWord)

/-- Word-boundary test on the left of a candidate match: `prev` is the character
immediately before the match position (`none` at the start of the string). -/
def okBefore : Option Char → Bool
  | none => true
  | some c => !isWordChar c

/-- Word-boundary test on the right of a candidate match: the character following
the 10 matched characters, if any, must not be a word character. -/
def okAfter (l : List Char) : Bool :=
  match l.drop 10 with
  | [] => true
  | c :: _ => !isWordChar c

/-- A whole-word, case-insensitive match of "References" begins at the head of `l`,
with `prev` the character just before `l` in the full string. -/
def isRefAt (prev : Option Char) (l : List Char) : Bool :=
  startsWithRef l && okBefore prev && okAfter l

/-- Scan for the first whole-word occurrence of "References" and keep everything
strictly before it: this is `re.split(r"\bReferences\b", s, flags=re.IGNORECASE)[0]`. -/
def truncAux : Option Char → List Char → List Char
  | _, [] => []
  | prev, c :: rest =>
    if isRefAt prev (c :: rest) then []
    else c :: truncAux (some c) rest

/-- Python `str.strip()`: drop whitespace from both ends. -/
def stripStr (l : List Char) : List Char :=
  ((l.dropWhile Char.isWhitespace).reverse.dropWhile Char.isWhitespace).reverse

/-- Line splitting stage: `lines = text.split("\n")` (source line 116). -/
def linesOf (t : List Char) : List (List Char) := splitNl t

/-- Filtering stage: `lines = [line for line in lines if len(line) > 5]`
(source line 117).  Note the filter tests the raw, untrimmed line length. -/
def keptLines (t : List Char) : List (List Char) :=
  (linesOf t).filter (fun l => decide (5 < l.length))

/-- Joining stage: `clean_text = " ".join(lines)` (source line 118). -/
def joined (t : List Char) : List Char := joinSp (keptLines t)

/-- Truncation stage: `clean_text = re.split(r"\bReferences\b", clean_text,
flags=re.IGNORECASE)[0]` (source line 119). -/
def truncated (t : List Char) : List Char := truncAux none (joined t)

/-- The whole per-page cleaning step, ending with `clean_text.strip()`
(source line 120). -/
def clean (t : List Char) : List Char := stripStr (truncated t)

/-- `page.extract_text() or ""` (source line 115): a page with no extractable
text (`None`) is treated as the empty string. -/
def pageRawText : Option (List Char) → List Char
  | none => []
  | some s => s

/-- The per-document loop of `extract_main_text_from_pdf`: clean each page. -/
def extract_main_text_from_pdf (pages : List (Option (List Char))) : List (List Char) :=
  pages.map (fun p => clean (pageRawText p))

/-- A whole-word, case-insensitive occurrence of "References" begins at index `i`
of the string, where `prev` is the character just before the string (`none` at the
very start).  `wholeWordRefAtP none l i` is the positional reading of the regex
match used by the truncation stage. -/
def wholeWordRefAtP (prev : Option Char) : List Char → Nat → Bool
  | l, 0 => isRefAt prev l
  | [], _ + 1 => false
  | c :: rest, i + 1 => wholeWordRefAtP (some c) rest i

/-! ## URL extraction (`extract_text_from_url`, source lines 67-70 / 99-102)
and its consumption in `main` (line 224). -/

/-- Join with a single newline between consecutive elements: `"\n".join(lines)`. -/
def joinNl : List (List Char) → List Char
  | [] => []
  | [l] => l
  | l :: l' :: ls => l ++ '\n' :: joinNl (l' :: ls)

/-- The text post-processing of `extract_text_from_url`:
`lines = [line.strip() for line in text.split("\n") if line.strip()]` followed by
`"\n".join(lines)` (source lines 68-69). -/
def extract_text_from_url (raw : List Char) : List Char :=
  joinNl (((splitNl raw).map stripStr).filter (fun l => decide (l ≠ [])))

/-- Python `text.split("\n\n")`: split on two consecutive newlines, greedily
left to right. -/
def splitDoubleNl : List Char → List (List Char)
  | [] => [[]]
  | [c] => [[c]]
  | c :: d :: rest =>
    if c = '\n' && d = '\n' then [] :: splitDoubleNl rest
    else
      match splitDoubleNl (d :: rest) with
      | [] => [[c]]
      | l :: ls => (c :: l) :: ls

/-- `pages = text.split("\n\n")` applied to a successful URL extraction
(source line 224). -/
def urlPages (raw : List Char) : List (List Char) :=
  splitDoubleNl (extract_text_from_url raw)

/-- `true` iff the string contains two consecutive newlines. -/
def hasDoubleNl : List Char → Bool
  | [] => false
  | [_] => false
  | c :: d :: rest => (c = '\n' && d = '\n') || hasDoubleNl (d :: rest)

/-! ## The playback path of `main` (PDF branch, source lines 198-215),
modelling which audio segments are produced. -/

/-- The four options of the "How long do you want to listen?" selectbox
(source line 198). -/
inductive ListeningTime where
  | thirtyMinutes
  | oneHour
  | twoHours
  | moreThanTwoHours
deriving DecidableEq

/-- The dictionary lookup
`{"30 minutes": 0.5, "1 hour": 1, "2 hours": 2, "More than 2 hours": 3}[listening_time]`
(source line 199). -/
def listeningMinutes : ListeningTime → ℚ
  | .thirtyMinutes => 1 / 2
  | .oneHour => 1
  | .twoHours => 2
  | .moreThanTwoHours => 3

/-- Python `range(a, b)`: the list `[a, a+1, ..., b-1]`, empty when `b ≤ a`. -/
def pyRange (a b : Nat) : List Nat := (List.range (b - a)).map (fun k => a + k)

/-- `play_audio` (source lines 143-149): for each page index in
`range(start_page, end_page + 1)`, synthesize audio for the page's text and keep
the successful results.  The external `generate_audio` call (gTTS) is abstracted
as a function `tts` returning `none` on failure; the slider guarantees in-range
indices, so `pages[i]` is modelled as `getD`. -/
def play_audio {α : Type} (tts : List Char → String → String → Option α)
    (pages : List (List Char)) (start_page end_page : Nat)
    (accent voice_gender : String) : List α :=
  (pyRange start_page (end_page + 1)).filterMap
    (fun i => tts (pages.getD i []) accent voice_gender)

/-- The PDF playback path of `main` (source lines 198-214): compute
`listening_minutes` from the selectbox, convert the 1-based slider values to
0-based indices, and call `play_audio`.  `listening_minutes` is bound but never
passed on. -/
def main_pdf_audio {α : Type} (tts : List Char → String → String → Option α)
    (pages : List (List Char)) (listening_time : ListeningTime)
    (start_sel end_sel : Nat) (accent voice_gender : String) : List α :=
  let listening_minutes := listeningMinutes listening_time
  let start_page := start_sel - 1
  let end_page := end_sel - 1
  play_audio tts pages start_page end_page accent voice_gender

/-! ## PacingEstimator (spec §4.2).

The repository's source has no `estimateSegmentCount` or `boundedRange`
function (`listening_minutes` is computed in `main` but never consumed); the
spec specifies them as the pacing core.  They are modelled here from the
spec's §4.2 wording. -/

/-- Modelled from the spec: the error raised by `estimateSegmentCount` on an
empty segment sequence or non-positive duration/rate (spec §7).  The source
under `src/` contains no such function. -/
inductive InvalidInputError where
  | invalidInput
deriving DecidableEq

/-- Count maximal runs of non-whitespace characters; the flag records whether
the scan is currently inside a word. -/
def countWordsAux : Bool → List Char → Nat
  | _, [] => 0
  | inWord, c :: rest =>
    if c.isWhitespace then countWordsAux false rest
    else (if inWord then 0 else 1) + countWordsAux true rest

/-- Modelled from the spec: `wordCount(s)`, the number of whitespace-separated
words of a segment (spec §4.2). -/
def wordCount (l : List Char) : Nat := countWordsAux false l

/-- Modelled from the spec: `totalWords = sum(wordCount(s) for s in segments)`. -/
def totalWords (segments : List (List Char)) : Nat :=
  (segments.map wordCount).sum

/-- Modelled from the spec: `wordsPerSegment = totalWords / len(segments)`,
the arithmetic mean. -/
def meanWordsPerSegment (segments : List (List Char)) : ℚ :=
  (totalWords segments : ℚ) / (segments.length : ℚ)

/-- Modelled from the spec: `estimateSegmentCount(segments, targetMinutes,
averageWordsPerMinute)` (spec §4.2); absent from the source under `src/`.
Raises `InvalidInputError` on an empty sequence or non-positive duration/rate;
when the mean words per segment is 0 the result is `len(segments)`; otherwise
`floor(averageWordsPerMinute * targetMinutes / wordsPerSegment)` clamped to
`[0, len(segments)]`. -/
def estimateSegmentCount (segments : List (List Char))
    (targetMinutes averageWordsPerMinute : ℚ) : Except InvalidInputError Nat :=
  if segments = [] ∨ targetMinutes ≤ 0 ∨ averageWordsPerMinute ≤ 0 then
    .error .invalidInput
  else if meanWordsPerSegment segments = 0 then
    .ok segments.length
  else
    .ok (min segments.length
      (Rat.floor (averageWordsPerMinute * targetMinutes / meanWordsPerSegment segments)).toNat)

/-- Clamp `x` into the interval `[lo, hi]`. -/
def clamp (lo hi x : ℤ) : ℤ := if x < lo then lo else if hi < x then hi else x

/-- Modelled from the spec: `boundedRange(totalSegments, requestedStart,
requestedEndExclusive)` (spec §4.2); absent from the source under `src/`.
Clamps the start to `[0, totalSegments]` and the exclusive end to
`[clampedStart, totalSegments]`; never raises. -/
def boundedRange (totalSegments requestedStart requestedEndExclusive : ℤ) : ℤ × ℤ :=
  let s := clamp 0 totalSegments requestedStart
  let e := clamp s totalSegments requestedEndExclusive
  (s, e)

/-! ## Structural lemmas about the cleaning pipeline. -/

theorem splitNl_ne_nil : ∀ t : List Char, splitNl t ≠ []
  | [] => by simp [splitNl]
  | c :: rest => by
    cases h : splitNl rest with
    | nil => simp [splitNl, h]
    | cons l ls => by_cases hc : c = '\n' <;> simp [splitNl, h, hc]

theorem splitNl_length_sum :
    ∀ t : List Char,
      ((splitNl t).map List.length).sum + ((splitNl t).length - 1) = t.length
  | [] => rfl
  | c :: rest => by
    have ih := splitNl_length_sum rest
    cases h : splitNl rest with
    | nil => exact absurd h (splitNl_ne_nil rest)
    | cons l ls =>
      rw [h] at ih
      simp only [List.map_cons, List.sum_cons, List.length_cons] at ih
      by_cases hc : c = '\n' <;>
        simp only [splitNl, h, hc, if_pos, if_neg, List.map_cons, List.sum_cons,
          List.length_cons, List.length_nil, ite_true, ite_false] <;>
        omega

theorem joinSp_length :
    ∀ ls : List (List Char),
      (joinSp ls).length = (ls.map List.length).sum + (ls.length - 1)
  | [] => rfl
  | [l] => by simp [joinSp]
  | l :: l' :: ls => by
    have ih := joinSp_length (l' :: ls)
    simp only [joinSp, List.length_append, List.length_cons, ih, List.map_cons,
      List.sum_cons]
    omega

theorem sumLen_filter_le (p : List Char → Bool) :
    ∀ ls : List (List Char),
      ((ls.filter p).map List.length).sum ≤ (ls.map List.length).sum
  | [] => le_refl _
  | l :: ls => by
    have ih := sumLen_filter_le p ls
    by_cases h : p l <;> simp [List.filter_cons, h] <;> omega

theorem truncAux_decomp : ∀ (l : List Char) (prev : Option Char),
    ∃ w, l = truncAux prev l ++ w
  | [], _ => ⟨[], rfl⟩
  | c :: rest, prev => by
    by_cases h : isRefAt prev (c :: rest) = true
    · exact ⟨c :: rest, by simp [truncAux, h]⟩
    · obtain ⟨w, hw⟩ := truncAux_decomp rest (some c)
      refine ⟨w, ?_⟩
      have he : truncAux prev (c :: rest) = c :: truncAux (some c) rest := by
        simp [truncAux, h]
      rw [he, List.cons_append, ← hw]

theorem truncAux_length_le (prev : Option Char) (l : List Char) :
    (truncAux prev l).length ≤ l.length := by
  obtain ⟨w, h⟩ := truncAux_decomp l prev
  have h' := congrArg List.length h
  simp only [List.length_append] at h'
  omega

theorem strip_decomp (l : List Char) : ∃ u v, l = u ++ stripStr l ++ v := by
  have h1 := List.takeWhile_append_dropWhile (p := Char.isWhitespace) (l := l)
  have h2 := List.takeWhile_append_dropWhile (p := Char.isWhitespace)
    (l := (l.dropWhile Char.isWhitespace).reverse)
  have h3 := congrArg List.reverse h2
  simp only [List.reverse_append, List.reverse_reverse] at h3
  refine ⟨l.takeWhile Char.isWhitespace,
    ((l.dropWhile Char.isWhitespace).reverse.takeWhile Char.isWhitespace).reverse, ?_⟩
  have h4 : stripStr l ++
      ((l.dropWhile Char.isWhitespace).reverse.takeWhile Char.isWhitespace).reverse =
      l.dropWhile Char.isWhitespace := h3
  rw [List.append_assoc, h4]
  exact h1.symm

theorem stripStr_length_le (l : List Char) : (stripStr l).length ≤ l.length := by
  obtain ⟨u, v, h⟩ := strip_decomp l
  have h' := congrArg List.length h
  simp only [List.length_append] at h'
  omega

theorem stripStr_mem (l : List Char) (x : Char) (h : x ∈ stripStr l) : x ∈ l := by
  obtain ⟨u, v, hl⟩ := strip_decomp l
  rw [hl]
  simp only [List.mem_append]
  exact Or.inl (Or.inr h)

theorem wholeWordRefAtP_trunc :
    ∀ (l : List Char) (prev : Option Char) (i : Nat),
      wholeWordRefAtP prev l i = true → (truncAux prev l).length ≤ i
  | l, prev, 0, h => by
    cases l with
    | nil => simp [truncAux]
    | cons c rest =>
      have hr : isRefAt prev (c :: rest) = true := by
        simpa [wholeWordRefAtP] using h
      simp [truncAux, hr]
  | [], _, _ + 1, h => by cases h
  | c :: rest, prev, i + 1, h => by
    have ih := wholeWordRefAtP_trunc rest (some c) i h
    by_cases hr : isRefAt prev (c :: rest) = true
    · simp [truncAux, hr]
    · have he : truncAux prev (c :: rest) = c :: truncAux (some c) rest := by
        simp [truncAux, hr]
      rw [he, List.length_cons]
      omega

theorem take_append_ge {α : Type} :
    ∀ (u w : List α) (n : Nat), u.length ≤ n →
      (u ++ w).take n = u ++ w.take (n - u.length)
  | [], w, n, _ => by simp
  | a :: u, w, n, h => by
    cases n with
    | zero => simp at h
    | succ m =>
      simp only [List.cons_append, List.take_succ_cons, List.length_cons]
      rw [take_append_ge u w m (by simpa using h)]
      have hm : m + 1 - (u.length + 1) = m - u.length := by omega
      rw [hm]

theorem splitNl_no_newline : ∀ (t : List Char) (l : List Char),
    l ∈ splitNl t → '\n' ∉ l
  | [], l, hl => by
    simp [splitNl] at hl
    subst hl; simp
  | c :: rest, l, hl => by
    obtain ⟨l₀, ls, hrest⟩ : ∃ l₀ ls, splitNl rest = l₀ :: ls := by
      cases h : splitNl rest with
      | nil => exact absurd h (splitNl_ne_nil rest)
      | cons a as => exact ⟨a, as, rfl⟩
    have ih₀ : '\n' ∉ l₀ :=
      splitNl_no_newline rest l₀ (by rw [hrest]; exact List.mem_cons_self _ _)
    have ihs : ∀ x ∈ ls, '\n' ∉ x := fun x hx =>
      splitNl_no_newline rest x (by rw [hrest]; exact List.mem_cons_of_mem _ hx)
    by_cases hc : c = '\n'
    · rw [splitNl, hrest] at hl
      simp only [hc, ite_true, if_pos, List.mem_cons] at hl
      rcases hl with h | h | h
      · subst h; simp
      · subst h; exact ih₀
      · exact ihs l h
    · rw [splitNl, hrest] at hl
      simp only [hc, ite_false, if_neg, List.mem_cons] at hl
      rcases hl with h | h
      · subst h
        intro hmem
        rcases List.mem_cons.mp hmem with h' | h'
        · exact hc h'.symm
        · exact ih₀ h'
      · exact ihs l h

theorem noNl_no_double : ∀ l : List Char, '\n' ∉ l → hasDoubleNl l = false
  | [], _ => rfl
  | [_], _ => rfl
  | c :: d :: rest, h => by
    have hc : c ≠ '\n' := fun hx => h (hx ▸ List.mem_cons_self _ _)
    have h' : '\n' ∉ d :: rest := fun hx => h (List.mem_cons_of_mem _ hx)
    have ih := noNl_no_double (d :: rest) h'
    simp [hasDoubleNl, ih, hc]

theorem append_nl_no_double :
    ∀ (u m : List Char), '\n' ∉ u → hasDoubleNl m = false →
      (∀ x, m.head? = some x → x ≠ '\n') →
      hasDoubleNl (u ++ '\n' :: m) = false
  | [], m, _, hm, hh => by
    cases m with
    | nil => rfl
    | cons x m' =>
      have hx : x ≠ '\n' := hh x rfl
      simp [hasDoubleNl, hm, hx]
  | a :: u', m, hu, hm, hh => by
    have ha : a ≠ '\n' := fun h => hu (h ▸ List.mem_cons_self _ _)
    have hu' : '\n' ∉ u' := fun h => hu (List.mem_cons_of_mem _ h)
    have ih := append_nl_no_double u' m hu' hm hh
    cases u' with
    | nil => simpa [hasDoubleNl, ha] using ih
    | cons b u'' => simpa [hasDoubleNl, ha] using ih

theorem joinNl_head : ∀ (l' : List (List Char)) (l : List Char),
    l ≠ [] → ∀ x, (joinNl (l :: l')).head? = some x → x ∈ l
  | [], l, hne, x, hx => by
    rw [joinNl] at hx
    cases l with
    | nil => exact absurd rfl hne
    | cons c r =>
      simp only [List.head?] at hx
      rw [← Option.some.inj hx]
      exact List.mem_cons_self _ _
  | l'' :: ls, l, hne, x, hx => by
    rw [joinNl] at hx
    cases l with
    | nil => exact absurd rfl hne
    | cons c r =>
      simp only [List.cons_append, List.head?] at hx
      rw [← Option.some.inj hx]
      exact List.mem_cons_self _ _

theorem joinNl_no_double :
    ∀ ls : List (List Char), (∀ l ∈ ls, l ≠ [] ∧ '\n' ∉ l) →
      hasDoubleNl (joinNl ls) = false
  | [], _ => rfl
  | [l], h => noNl_no_double l (h l (List.mem_cons_self _ _)).2
  | l :: l' :: ls, h => by
    have h1 := h l (List.mem_cons_self _ _)
    have h' : ∀ x ∈ l' :: ls, x ≠ [] ∧ '\n' ∉ x := fun x hx =>
      h x (List.mem_cons_of_mem _ hx)
    have ih := joinNl_no_double (l' :: ls) h'
    have h2 := h' l' (List.mem_cons_self _ _)
    rw [joinNl]
    apply append_nl_no_double l (joinNl (l' :: ls)) h1.2 ih
    intro x hx hcon
    exact h2.2 (hcon ▸ joinNl_head ls l' h2.1 x hx)

theorem splitD_no_double :
    ∀ l : List Char, hasDoubleNl l = false → splitDoubleNl l = [l]
  | [], _ => rfl
  | [_], _ => rfl
  | c :: d :: rest, h => by
    have h' : ¬(decide (c = '\n') && decide (d = '\n')) = true ∧
        hasDoubleNl (d :: rest) = false := by
      constructor
      · intro hx
        rw [hasDoubleNl, hx] at h
        simp at h
      · by_cases hx : (decide (c = '\n') && decide (d = '\n')) = true
        · rw [hasDoubleNl, hx] at h; simp at h
        · rw [hasDoubleNl] at h
          simpa [Bool.eq_false_iff.mpr hx] using h
    have ih := splitD_no_double (d :: rest) h'.2
    rw [splitDoubleNl, if_neg (by simpa using h'.1), ih]

/-! ## Claim theorems: the cleaning step. -/

/-- C1 (counterexample): the input `"  ab  "` is a single line of untrimmed
length 6 whose trimmed length is 2 ≤ 5; the claim says such a line is
discarded (so `clean` would return `""`), yet the code keeps it and returns
`"ab"`, because the filter on source line 117 tests the raw, untrimmed
length. -/
theorem clean_keeps_padded_short_line :
    5 < "  ab  ".data.length ∧ (stripStr "  ab  ".data).length ≤ 5 ∧
      clean "  ab  ".data = "ab".data ∧ clean "  ab  ".data ≠ [] := by
  refine ⟨by decide, by decide, by decide, by decide⟩

/-- C1 (amended): `clean` discards exactly those lines whose raw, untrimmed
length is at most 5 characters; a line survives the filter iff its untrimmed
length exceeds 5, regardless of its trimmed length. -/
theorem clean_filters_by_untrimmed_length :
    ∀ t l, l ∈ keptLines t ↔ l ∈ linesOf t ∧ 5 < l.length := by
  intro t l
  simp [keptLines, List.mem_filter]

/-- C2: after joining the surviving lines with single spaces, `clean` keeps
only text strictly before the first case-insensitive whole-word occurrence of
"References": on the spec's example it returns `"Intro text."`, and whenever a
whole-word occurrence begins at index `i` of the joined text, the output fits
within the first `i` characters (it is a contiguous piece of `(joined t).take i`,
so no text at or after the occurrence appears). -/
theorem clean_truncates_before_references :
    clean "Intro text. References\nCitation one.".data = "Intro text.".data ∧
    ∀ (t : List Char) (i : Nat), wholeWordRefAtP none (joined t) i = true →
      (clean t).length ≤ i ∧
        ∃ u v, (joined t).take i = u ++ clean t ++ v := by
  refine ⟨by decide, ?_⟩
  intro t i h
  obtain ⟨w, hw⟩ := truncAux_decomp (joined t) none
  have hlen : (truncated t).length ≤ i := wholeWordRefAtP_trunc _ none i h
  obtain ⟨u, v, huv⟩ := strip_decomp (truncated t)
  have hclean : truncated t = u ++ clean t ++ v := huv
  have hcl : (clean t).length ≤ (truncated t).length := by
    have := congrArg List.length hclean
    simp only [List.length_append] at this
    omega
  refine ⟨by omega, u, v ++ w.take (i - (truncated t).length), ?_⟩
  have hjw : joined t = truncated t ++ w := hw
  rw [hjw, take_append_ge _ _ _ hlen, hclean]
  simp [List.append_assoc]

/-- Witness for C2 at the spec's example: a whole-word occurrence of
"References" begins at index 12 of the joined text, and the cleaned output
lies strictly before it. -/
theorem clean_truncates_before_references_witness :
    wholeWordRefAtP none (joined "Intro text. References\nCitation one.".data) 12 = true ∧
      ((clean "Intro text. References\nCitation one.".data).length ≤ 12 ∧
        ∃ u v, (joined "Intro text. References\nCitation one.".data).take 12 =
          u ++ clean "Intro text. References\nCitation one.".data ++ v) :=
  ⟨by decide, clean_truncates_before_references.2 _ 12 (by decide)⟩

/-- C3: the cleaning step never lengthens the text: for every input `t`,
`(clean t).length ≤ t.length`. -/
theorem clean_length_le : ∀ t : List Char, (clean t).length ≤ t.length := by
  intro t
  have h1 : (clean t).length ≤ (truncated t).length := stripStr_length_le _
  have h2 : (truncated t).length ≤ (joined t).length := truncAux_length_le none _
  have h3 : (joined t).length ≤ t.length := by
    have hj := joinSp_length (keptLines t)
    have hs := sumLen_filter_le (fun l => decide (5 < l.length)) (linesOf t)
    have hl : (keptLines t).length ≤ (linesOf t).length :=
      List.length_filter_le _ _
    have ht := splitNl_length_sum t
    have hk : keptLines t = (linesOf t).filter (fun l => decide (5 < l.length)) := rfl
    have hlin : linesOf t = splitNl t := rfl
    rw [hk] at hj hl
    rw [hlin] at hj hl hs
    show (joinSp ((splitNl t).filter (fun l => decide (5 < l.length)))).length ≤ t.length
    omega
  omega

/-- C4: `clean` is total (it can raise no exception), maps the empty string to
the empty string, and maps a page with no extractable text
(`page.extract_text()` returning `None`, modelled as `pageRawText none`) to the
empty string. -/
theorem clean_empty_input : clean (pageRawText none) = [] ∧ clean [] = [] :=
  ⟨rfl, rfl⟩

/-- C10: a successful URL extraction always yields exactly one "page":
`extract_text_from_url` joins the non-empty stripped lines with single
newlines, so the text never contains two consecutive newlines, and splitting
it on `"\n\n"` (source line 224) returns the single segment holding the whole
extracted text. -/
theorem urlPages_single :
    ∀ raw : List Char, urlPages raw = [extract_text_from_url raw] := by
  intro raw
  apply splitD_no_double
  apply joinNl_no_double
  intro l hl
  rw [List.mem_filter] at hl
  obtain ⟨hmem, hne⟩ := hl
  rw [List.mem_map] at hmem
  obtain ⟨l₀, hl₀, rfl⟩ := hmem
  refine ⟨by simpa using hne, ?_⟩
  intro hnl
  exact splitNl_no_newline raw l₀ hl₀ (stripStr_mem _ _ hnl)

/-- C9: the listening-duration selection does not influence the produced audio:
for a fixed document, page range, accent and voice gender, two runs of the PDF
playback path of `main` that differ only in the "How long do you want to
listen?" selection generate the same list of audio segments —
`listening_minutes` is computed but never read. -/
theorem listening_time_no_effect :
    ∀ (α : Type) (tts : List Char → String → String → Option α)
      (pages : List (List Char)) (t₁ t₂ : ListeningTime)
      (start_sel end_sel : Nat) (accent voice_gender : String),
      main_pdf_audio tts pages t₁ start_sel end_sel accent voice_gender =
        main_pdf_audio tts pages t₂ start_sel end_sel accent voice_gender :=
  fun _ _ _ _ _ _ _ _ _ => rfl

/-! ## Claim theorems: the pacing estimator (spec-modelled). -/

theorem clamp_spec (lo hi x : ℤ) (h : lo ≤ hi) :
    lo ≤ clamp lo hi x ∧ clamp lo hi x ≤ hi ∧
      (lo ≤ x → x ≤ hi → clamp lo hi x = x) := by
  refine ⟨?_, ?_, ?_⟩
  · unfold clamp; split_ifs <;> omega
  · unfold clamp; split_ifs <;> omega
  · intro h1 h2; unfold clamp; split_ifs <;> omega

/-- C5: `boundedRange` never raises, satisfies the spec's three examples, and
clamps: for a non-negative total the returned pair lies in
`0 ≤ start ≤ endExclusive ≤ total`, and in-range requests are returned
unchanged. -/
theorem boundedRange_clamps :
    boundedRange 10 (-3) 20 = (0, 10) ∧ boundedRange 10 5 2 = (5, 5) ∧
      boundedRange 10 3 7 = (3, 7) ∧
      ∀ total s e : ℤ, 0 ≤ total →
        0 ≤ (boundedRange total s e).1 ∧
        (boundedRange total s e).1 ≤ (boundedRange total s e).2 ∧
        (boundedRange total s e).2 ≤ total ∧
        (0 ≤ s → s ≤ total → (boundedRange total s e).1 = s) ∧
        ((boundedRange total s e).1 ≤ e → e ≤ total → (boundedRange total s e).2 = e) := by
  refine ⟨by decide, by decide, by decide, ?_⟩
  intro total s e htot
  have h1 := clamp_spec 0 total s htot
  have h2 := clamp_spec (clamp 0 total s) total e h1.2.1
  exact ⟨h1.1, h2.1, h2.2.1, fun hs1 hs2 => h1.2.2 hs1 hs2,
    fun he1 he2 => h2.2.2 he1 he2⟩

/-- Witness for C5: at `total = 10, start = 3, endExclusive = 7` all
hypotheses hold and the start is returned unchanged. -/
theorem boundedRange_clamps_witness :
    0 ≤ (10 : ℤ) ∧ (boundedRange 10 3 7).1 = 3 :=
  ⟨by decide,
    (boundedRange_clamps.2.2.2 10 3 7 (by decide)).2.2.2.1 (by decide) (by decide)⟩

/-- C6: `estimateSegmentCount` fails with `InvalidInputError` exactly when the
segment sequence is empty or the target duration or rate is non-positive; in
particular it fails on the empty sequence. -/
theorem estimateSegmentCount_invalid_iff :
    (∀ (segments : List (List Char)) (m w : ℚ),
      (∃ e, estimateSegmentCount segments m w = .error e) ↔
        (segments = [] ∨ m ≤ 0 ∨ w ≤ 0)) ∧
    ∀ m w : ℚ, estimateSegmentCount [] m w = .error InvalidInputError.invalidInput := by
  constructor
  · intro segs m w
    constructor
    · rintro ⟨e, he⟩
      by_contra hcon
      rw [estimateSegmentCount, if_neg hcon] at he
      by_cases hm : meanWordsPerSegment segs = 0
      · rw [if_pos hm] at he; exact Except.noConfusion he
      · rw [if_neg hm] at he; exact Except.noConfusion he
    · intro h
      exact ⟨InvalidInputError.invalidInput, by rw [estimateSegmentCount, if_pos h]⟩
  · intro m w
    rw [estimateSegmentCount, if_pos (Or.inl rfl)]

theorem meanWords_nonneg (segments : List (List Char)) :
    0 ≤ meanWordsPerSegment segments := by
  unfold meanWordsPerSegment
  exact div_nonneg (Nat.cast_nonneg _) (Nat.cast_nonneg _)

/-- C7: for a fixed non-empty segment sequence and positive rate,
`estimateSegmentCount` is monotonically non-decreasing in the target
duration. -/
theorem estimateSegmentCount_monotone :
    ∀ (segments : List (List Char)) (m₁ m₂ w : ℚ),
      segments ≠ [] → 0 < m₁ → m₁ ≤ m₂ → 0 < w →
      ∃ k₁ k₂, estimateSegmentCount segments m₁ w = .ok k₁ ∧
        estimateSegmentCount segments m₂ w = .ok k₂ ∧ k₁ ≤ k₂ := by
  intro segs m₁ m₂ w hne h1 h12 hw
  have h2 : (0 : ℚ) < m₂ := lt_of_lt_of_le h1 h12
  have hc₁ : ¬(segs = [] ∨ m₁ ≤ 0 ∨ w ≤ 0) := by push_neg; exact ⟨hne, h1, hw⟩
  have hc₂ : ¬(segs = [] ∨ m₂ ≤ 0 ∨ w ≤ 0) := by push_neg; exact ⟨hne, h2, hw⟩
  rw [estimateSegmentCount, estimateSegmentCount, if_neg hc₁, if_neg hc₂]
  by_cases hm : meanWordsPerSegment segs = 0
  · rw [if_pos hm, if_pos hm]
    exact ⟨_, _, rfl, rfl, le_refl _⟩
  · rw [if_neg hm, if_neg hm]
    refine ⟨_, _, rfl, rfl, ?_⟩
    have hm0 : 0 < meanWordsPerSegment segs :=
      lt_of_le_of_ne (meanWords_nonneg segs) (Ne.symm hm)
    have hdiv : w * m₁ / meanWordsPerSegment segs ≤
        w * m₂ / meanWordsPerSegment segs :=
      (div_le_div_iff_of_pos_right hm0).mpr (mul_le_mul_of_nonneg_left h12 hw.le)
    have hfl : Rat.floor (w * m₁ / meanWordsPerSegment segs) ≤
        Rat.floor (w * m₂ / meanWordsPerSegment segs) := by
      apply Rat.le_floor.mpr
      exact le_trans (Rat.le_floor.mp (le_refl _)) hdiv
    have := Int.toNat_le_toNat hfl
    omega

/-- Witness for C7: one segment of two words, one versus two minutes at 150
words per minute. -/
theorem estimateSegmentCount_monotone_witness :
    (["hello world".data] : List (List Char)) ≠ [] ∧ (0 : ℚ) < 1 ∧
      (1 : ℚ) ≤ 2 ∧ (0 : ℚ) < 150 ∧
      ∃ k₁ k₂, estimateSegmentCount ["hello world".data] 1 150 = .ok k₁ ∧
        estimateSegmentCount ["hello world".data] 2 150 = .ok k₂ ∧ k₁ ≤ k₂ :=
  ⟨by decide, by decide, by decide, by decide,
    estimateSegmentCount_monotone ["hello world".data] 1 2 150
      (by decide) (by decide) (by decide) (by decide)⟩

/-- C8: on valid input the estimate lies in `[0, len(segments)]` (it is a
`Nat`, so non-negative, and never exceeds the segment count), and when the
mean words per segment is 0 the result is exactly `len(segments)`. -/
theorem estimateSegmentCount_le_length :
    ∀ (segments : List (List Char)) (m w : ℚ),
      segments ≠ [] → 0 < m → 0 < w →
      ∃ k, estimateSegmentCount segments m w = .ok k ∧ k ≤ segments.length ∧
        (meanWordsPerSegment segments = 0 → k = segments.length) := by
  intro segs m w hne hm hw
  have hc : ¬(segs = [] ∨ m ≤ 0 ∨ w ≤ 0) := by push_neg; exact ⟨hne, hm, hw⟩
  rw [estimateSegmentCount, if_neg hc]
  by_cases hmean : meanWordsPerSegment segs = 0
  · rw [if_pos hmean]
    exact ⟨_, rfl, le_refl _, fun _ => rfl⟩
  · rw [if_neg hmean]
    exact ⟨_, rfl, min_le_left _ _, fun h => absurd h hmean⟩

/-- Witness for C8: one segment of two words, one minute at 150 words per
minute. -/
theorem estimateSegmentCount_le_length_witness :
    (["hello world".data] : List (List Char)) ≠ [] ∧ (0 : ℚ) < 1 ∧ (0 : ℚ) < 150 ∧
      ∃ k, estimateSegmentCount ["hello world".data] 1 150 = .ok k ∧
        k ≤ (["hello world".data] : List (List Char)).length ∧
        (meanWordsPerSegment ["hello world".data] = 0 →
          k = (["hello world".data] : List (List Char)).length) :=
  ⟨by decide, by decide, by decide,
    estimateSegmentCount_le_length ["hello world".data] 1 150
      (by decide) (by decide) (by decide)⟩

end PdfAudio
